import Mathlib

/-!
# Verification of the `orderedmap` package (DominicTobias/go-ordered-map)

Shallow embedding of `orderedmap.go`. The Go container keeps two structures
in lockstep:

* `pairs map[K]*Pair[K,V]` — a hash index from key to a heap-allocated
  `Pair` (key, value, element pointer);
* `list *list.List[*Pair[K,V]]` — a doubly linked list whose elements hold
  the same `Pair` pointers, in insertion order.

A live `Pair` is uniquely determined by its key (keys are unique in the map
and the `Key` field is never mutated), so a `*Pair` pointer is embedded as
the pair's key. Accordingly:

* the Go map becomes an association list `pairs : List (K × V)`
  (only key-based lookup/update/delete and its size are ever used, so the
  iteration order of the Go map is irrelevant);
* the linked list becomes `seq : List K`, the keys in sequence order;
  reading `pair.Value` through a list element dereferences the shared
  `Pair`, embedded as a lookup of the key in `pairs`.

The `list` package (`github.com/DominicTobias/go-ordered-map/list`) is not
part of the two source files; its operations (`PushBack`, `Remove`,
`Front`, `Back`, `Element.Next`, `Element.Prev`, `Len`) are modelled from
the spec's §4.1 "Linked Sequence": `PushBack` appends at the tail,
`Remove` unlinks one node, `Next`/`Prev` move to the neighbouring node and
are absent at the boundary.
-/

set_option autoImplicit false
set_option linter.unusedSectionVars false

namespace OrderedMapGo

variable {K V : Type} [DecidableEq K]

/-- Go map read `om.pairs[key]`: first (= unique, under well-formedness)
binding of `k` in the association list. -/
def lookupVal : List (K × V) → K → Option V
  | [], _ => none
  | p :: rest, k => if p.1 = k then some p.2 else lookupVal rest k

/-- In-place value overwrite `pair.Value = value`: the binding of `k` gets
value `v`, everything else (including sequence positions) is untouched. -/
def setVal : List (K × V) → K → V → List (K × V)
  | [], _, _ => []
  | p :: rest, k, v =>
    (if p.1 = k then (p.1, v) else p) :: setVal rest k v

/-- Go map deletion `delete(om.pairs, key)`: drop the binding of `k`
(a Go map holds at most one, so dropping every one is the same thing). -/
def eraseKey : List (K × V) → K → List (K × V)
  | [], _ => []
  | p :: rest, k =>
    if p.1 = k then eraseKey rest k else p :: eraseKey rest k

/-- Modelled from the spec: `Element.Next` of the Linked Sequence (§4.1)
returns the neighbour toward the back, absent at the tail. `seqNext s k`
is the element right after the node of `k` in sequence `s`. -/
def seqNext : List K → K → Option K
  | [], _ => none
  | a :: rest, k => if a = k then rest.head? else seqNext rest k

/-- The ordered map state: index (`pairs map[K]*Pair`) plus linked
sequence (`list *list.List[*Pair]`), with `*Pair` embedded as the key. -/
structure OrderedMap (K V : Type) where
  pairs : List (K × V)
  seq : List K

/-- `New` creates a new OrderedMap: empty index, empty list. -/
def New : OrderedMap K V := ⟨[], []⟩

/-- `Get` returns the value associated with the key and `true`, or the zero
value (`default`) and `false` if the key is not present. -/
def Get [Inhabited V] (om : OrderedMap K V) (k : K) : V × Bool :=
  match lookupVal om.pairs k with
  | some v => (v, true)
  | none => (default, false)

/-- `GetPair` returns the pair associated with the key (embedded as the key
itself, standing for the `*Pair` handle), or `none` (nil) if not found. -/
def GetPair (om : OrderedMap K V) (k : K) : Option K :=
  match lookupVal om.pairs k with
  | some _ => some k
  | none => none

/-- `Set`: if the key is present, overwrite the pair's value in place and
return the old value with `true`; otherwise create a pair, `PushBack` it
onto the sequence, insert it into the index, and return the zero value
with `false`. Returns the pair (result, updated map). -/
def Set [Inhabited V] (om : OrderedMap K V) (k : K) (v : V) :
    (V × Bool) × OrderedMap K V :=
  match lookupVal om.pairs k with
  | some old => ((old, true), ⟨setVal om.pairs k v, om.seq⟩)
  | none => ((default, false), ⟨om.pairs ++ [(k, v)], om.seq ++ [k]⟩)

/-- `Delete`: if the key is present, `Remove` its node from the sequence,
delete the key from the index, and return its value with `true`;
otherwise change nothing and return the zero value with `false`. -/
def Delete [Inhabited V] (om : OrderedMap K V) (k : K) :
    (V × Bool) × OrderedMap K V :=
  match lookupVal om.pairs k with
  | some v => ((v, true), ⟨eraseKey om.pairs k, om.seq.erase k⟩)
  | none => ((default, false), om)

/-- `Len` returns the length of the ordered map: `len(om.pairs)`. -/
def Len (om : OrderedMap K V) : Nat := om.pairs.length

/-- `Oldest`: handle to the head of the sequence (`om.list.Front()`),
`none` (nil) when the map is empty. -/
def Oldest (om : OrderedMap K V) : Option K := om.seq.head?

/-- `Newest`: handle to the tail of the sequence (`om.list.Back()`),
`none` (nil) when the map is empty. -/
def Newest (om : OrderedMap K V) : Option K := om.seq.getLast?

/-- `Pair.Next`: the next pair along the sequence (`p.element.Next()`),
`none` (nil) at the tail. -/
def Next (om : OrderedMap K V) (k : K) : Option K := seqNext om.seq k

/-- `Pair.Prev`: the previous pair along the sequence
(`p.element.Prev()`), `none` (nil) at the head: the neighbour toward the
front is the neighbour toward the back in the reversed sequence. -/
def Prev (om : OrderedMap K V) (k : K) : Option K :=
  seqNext om.seq.reverse k

/-- One traversal loop `for pair := start; pair != nil; pair = step(pair)`,
collecting `(pair.Key, pair.Value)`. The step walks `s` (the sequence for
`Next`-loops, its reverse for `Prev`-loops); `fuel` bounds the number of
iterations, which a run never exhausts when `fuel ≥` the sequence length. -/
def chainFrom [Inhabited V] (om : OrderedMap K V) (s : List K) :
    Nat → Option K → List (K × V)
  | 0, _ => []
  | _ + 1, none => []
  | fuel + 1, some k =>
    match lookupVal om.pairs k with
    | none => []
    | some v => (k, v) :: chainFrom om s fuel (seqNext s k)

/-- Forward traversal `for pair := om.Oldest(); pair != nil; pair = pair.Next()`. -/
def traverseFwd [Inhabited V] (om : OrderedMap K V) : List (K × V) :=
  chainFrom om om.seq om.seq.length (Oldest om)

/-- Backward traversal `for pair := om.Newest(); pair != nil; pair = pair.Prev()`. -/
def traverseBwd [Inhabited V] (om : OrderedMap K V) : List (K × V) :=
  chainFrom om om.seq.reverse om.seq.length (Newest om)

/-- Forward traversal resumed from a pair handle, as in
`for pair := om.GetPair(k); pair != nil; pair = pair.Next()`. -/
def traverseFrom [Inhabited V] (om : OrderedMap K V) (start : Option K) :
    List (K × V) :=
  chainFrom om om.seq om.seq.length start

/-- The cross-structure invariant: the sequence holds no key twice, and the
index's key set is exactly the sequence's key set (as a multiset, hence a
bijection between index entries and sequence nodes). -/
def WF (om : OrderedMap K V) : Prop :=
  om.seq.Nodup ∧ List.Perm (om.pairs.map Prod.fst) om.seq

instance (om : OrderedMap K V) : Decidable (WF om) := by
  unfold WF; infer_instance

/-- Maps reachable by any sequence of `Set` / `Delete` calls from `New`. -/
inductive Reachable [Inhabited V] : OrderedMap K V → Prop
  | new : Reachable New
  | set (om : OrderedMap K V) (k : K) (v : V) :
      Reachable om → Reachable (Set om k v).2
  | del (om : OrderedMap K V) (k : K) :
      Reachable om → Reachable (Delete om k).2

/-! ## Basic lookup lemmas -/

theorem lookupVal_isSome_iff (l : List (K × V)) (k : K) :
    (lookupVal l k).isSome ↔ k ∈ l.map Prod.fst := by
  induction l with
  | nil => simp [lookupVal]
  | cons p rest ih =>
    by_cases h : p.1 = k
    · simp [lookupVal, h]
    · rw [List.map_cons, List.mem_cons]
      simp only [lookupVal, if_neg h]
      rw [ih]
      constructor
      · exact fun hm => Or.inr hm
      · rintro (hm | hm)
        · exact absurd hm.symm h
        · exact hm

theorem lookupVal_eq_none_iff (l : List (K × V)) (k : K) :
    lookupVal l k = none ↔ k ∉ l.map Prod.fst := by
  rw [← lookupVal_isSome_iff, Option.not_isSome_iff_eq_none]

theorem lookupVal_setVal_self (l : List (K × V)) (k : K) (v : V) :
    lookupVal (setVal l k v) k = (lookupVal l k).map (fun _ => v) := by
  induction l with
  | nil => simp [lookupVal, setVal]
  | cons p rest ih =>
    by_cases h : p.1 = k <;> simp [lookupVal, setVal, h, ih]

theorem lookupVal_setVal_ne (l : List (K × V)) (k k' : K) (v : V)
    (h : k' ≠ k) : lookupVal (setVal l k v) k' = lookupVal l k' := by
  induction l with
  | nil => simp [lookupVal, setVal]
  | cons p rest ih =>
    by_cases hp : p.1 = k
    · have hne : ¬(p.1 = k') := by rw [hp]; exact fun hc => h hc.symm
      simp only [setVal, if_pos hp]
      simp [lookupVal, hne, ih]
    · simp only [setVal, if_neg hp]
      by_cases hp' : p.1 = k' <;> simp [lookupVal, hp', ih]

theorem lookupVal_append_of_none (l : List (K × V)) (k : K) (v : V)
    (h : lookupVal l k = none) : lookupVal (l ++ [(k, v)]) k = some v := by
  induction l with
  | nil => simp [lookupVal]
  | cons p rest ih =>
    by_cases hp : p.1 = k
    · simp [lookupVal, hp] at h
    · simp [lookupVal, hp] at h ⊢; exact ih h

theorem lookupVal_append_ne (l : List (K × V)) (k k' : K) (v : V)
    (h : k' ≠ k) : lookupVal (l ++ [(k, v)]) k' = lookupVal l k' := by
  induction l with
  | nil =>
    have hne : ¬(k = k') := fun hc => h hc.symm
    simp [lookupVal, hne]
  | cons p rest ih =>
    by_cases hp : p.1 = k' <;> simp [lookupVal, hp, ih]

theorem lookupVal_eraseKey_self (l : List (K × V)) (k : K) :
    lookupVal (eraseKey l k) k = none := by
  induction l with
  | nil => simp [lookupVal, eraseKey]
  | cons p rest ih =>
    by_cases hp : p.1 = k <;> simp [lookupVal, eraseKey, hp, ih]

theorem lookupVal_eraseKey_ne (l : List (K × V)) (k k' : K)
    (h : k' ≠ k) : lookupVal (eraseKey l k) k' = lookupVal l k' := by
  induction l with
  | nil => simp [lookupVal, eraseKey]
  | cons p rest ih =>
    by_cases hp : p.1 = k
    · have hne : ¬(p.1 = k') := by rw [hp]; exact fun hc => h hc.symm
      simp only [eraseKey, if_pos hp]
      simp [lookupVal, hne, ih]
    · simp only [eraseKey, if_neg hp]
      by_cases hp' : p.1 = k' <;> simp [lookupVal, hp', ih]

/-! ## Index ↔ sequence key-set lemmas -/

theorem map_fst_setVal (l : List (K × V)) (k : K) (v : V) :
    (setVal l k v).map Prod.fst = l.map Prod.fst := by
  induction l with
  | nil => rfl
  | cons p rest ih =>
    by_cases hp : p.1 = k <;> simp [setVal, hp, ih]

theorem map_fst_eraseKey (l : List (K × V)) (k : K) :
    (eraseKey l k).map Prod.fst =
      (l.map Prod.fst).filter (fun a => decide ¬(a = k)) := by
  induction l with
  | nil => rfl
  | cons p rest ih =>
    by_cases hp : p.1 = k <;> simp [eraseKey, hp, List.filter_cons, ih]

theorem erase_eq_filterKey (l : List K) (k : K) (h : l.Nodup) :
    l.erase k = l.filter (fun a => decide ¬(a = k)) := by
  rw [List.Nodup.erase_eq_filter h]
  refine List.filter_congr (fun x _ => ?_)
  simp only [bne, decide_not]
  rfl

theorem mem_seq_iff_lookup (om : OrderedMap K V) (hwf : WF om) (k : K) :
    k ∈ om.seq ↔ (lookupVal om.pairs k).isSome := by
  rw [lookupVal_isSome_iff]
  exact (hwf.2.mem_iff).symm

/-! ## Well-formedness of every reachable map -/

theorem wf_new : WF (New : OrderedMap K V) := by
  constructor <;> simp [New]

theorem wf_set [Inhabited V] (om : OrderedMap K V) (k : K) (v : V)
    (hwf : WF om) : WF (Set om k v).2 := by
  rcases hl : lookupVal om.pairs k with _ | old
  · have hk : k ∉ om.seq := by
      intro hm
      have hs := (mem_seq_iff_lookup om hwf k).mp hm
      rw [hl] at hs
      simp at hs
    refine ⟨?_, ?_⟩
    · simp only [Set, hl]
      simp [List.nodup_append, hwf.1, hk]
    · simp only [Set, hl, List.map_append]
      exact hwf.2.append (List.Perm.refl _)
  · refine ⟨?_, ?_⟩
    · simp only [Set, hl]
      exact hwf.1
    · simp only [Set, hl]
      rw [map_fst_setVal]
      exact hwf.2

theorem wf_delete [Inhabited V] (om : OrderedMap K V) (k : K)
    (hwf : WF om) : WF (Delete om k).2 := by
  rcases hl : lookupVal om.pairs k with _ | v
  · simp only [Delete, hl]
    exact hwf
  · refine ⟨?_, ?_⟩
    · simp only [Delete, hl]
      exact hwf.1.erase k
    · simp only [Delete, hl]
      rw [map_fst_eraseKey, erase_eq_filterKey om.seq k hwf.1]
      exact hwf.2.filter _

theorem wf_of_reachable [Inhabited V] (om : OrderedMap K V)
    (h : Reachable om) : WF om := by
  induction h with
  | new => exact wf_new
  | set om k v _ ih => exact wf_set om k v ih
  | del om k _ ih => exact wf_delete om k ih

/-! ## Characterising the traversal loops -/

theorem seqNext_of_decomp (l1 l2 : List K) (k : K) (h : k ∉ l1) :
    seqNext (l1 ++ k :: l2) k = l2.head? := by
  induction l1 with
  | nil => simp [seqNext]
  | cons a rest ih =>
    have ha : ¬(a = k) := by
      intro hc
      exact h (by rw [← hc]; exact List.mem_cons_self a rest)
    simp only [List.cons_append, seqNext, if_neg ha]
    exact ih (fun hm => h (List.mem_cons_of_mem a hm))

theorem chainFrom_decomp [Inhabited V] (om : OrderedMap K V) (s : List K)
    (hnd : s.Nodup) (hmem : ∀ k ∈ s, (lookupVal om.pairs k).isSome) :
    ∀ (l2 l1 : List K) (fuel : Nat), s = l1 ++ l2 → l2.length ≤ fuel →
      chainFrom om s fuel l2.head? =
        l2.map (fun k => (k, (Get om k).1)) := by
  intro l2
  induction l2 with
  | nil =>
    intro l1 fuel _ _
    cases fuel <;> simp [chainFrom]
  | cons k l2' ih =>
    intro l1 fuel hs hf
    cases fuel with
    | zero => exact absurd hf (by simp)
    | succ f =>
      have hk : k ∈ s := by
        rw [hs]
        exact List.mem_append_right _ (List.mem_cons_self k l2')
      obtain ⟨v, hv⟩ := Option.isSome_iff_exists.mp (hmem k hk)
      have hknotl1 : k ∉ l1 := by
        intro hm
        rw [hs] at hnd
        exact List.disjoint_of_nodup_append hnd hm (List.mem_cons_self k l2')
      have hnext : seqNext s k = l2'.head? := by
        rw [hs]
        exact seqNext_of_decomp l1 l2' k hknotl1
      simp only [List.head?_cons, chainFrom, hv, hnext]
      rw [ih (l1 ++ [k]) f (by simp [hs]) (Nat.succ_le_succ_iff.mp hf)]
      simp [Get, hv]

theorem traverseFwd_eq [Inhabited V] (om : OrderedMap K V) (hwf : WF om) :
    traverseFwd om = om.seq.map (fun k => (k, (Get om k).1)) := by
  unfold traverseFwd Oldest
  exact chainFrom_decomp om om.seq hwf.1
    (fun k hk => (mem_seq_iff_lookup om hwf k).mp hk)
    om.seq [] om.seq.length (by simp) (le_refl _)

theorem traverseBwd_eq [Inhabited V] (om : OrderedMap K V) (hwf : WF om) :
    traverseBwd om = om.seq.reverse.map (fun k => (k, (Get om k).1)) := by
  unfold traverseBwd Newest
  rw [← List.head?_reverse]
  exact chainFrom_decomp om om.seq.reverse (List.nodup_reverse.mpr hwf.1)
    (fun k hk =>
      (mem_seq_iff_lookup om hwf k).mp (List.mem_reverse.mp hk))
    om.seq.reverse [] om.seq.length (by simp) (by simp)

theorem chainFrom_none [Inhabited V] (om : OrderedMap K V) (s : List K)
    (fuel : Nat) : chainFrom om s fuel none = [] := by
  cases fuel <;> rfl

theorem filter_ne_erase (l : List K) (k : K) :
    (l.erase k).filter (fun a => decide ¬(a = k)) =
      l.filter (fun a => decide ¬(a = k)) := by
  induction l with
  | nil => rfl
  | cons a t ih =>
    by_cases ha : a = k
    · subst ha
      rw [List.erase_cons_head]
      simp [List.filter_cons]
    · rw [List.erase_cons_tail (by simp [ha])]
      simp [List.filter_cons, ha]
      simpa using ih

theorem indexOf_append_singleton (l : List K) (k : K) (h : k ∉ l) :
    (l ++ [k]).indexOf k = l.length := by
  induction l with
  | nil => simp
  | cons a t ih =>
    have ha : ¬(a = k) := by
      intro hc
      exact h (by rw [← hc]; exact List.mem_cons_self a t)
    rw [List.cons_append, List.indexOf_cons_ne _ ha,
      ih (fun hm => h (List.mem_cons_of_mem a hm)), List.length_cons]

/-! ## The claims -/

/-- C1: for every map state and every key already present, `Set(key, value)`
overwrites the entry's value in place and returns the old value with
`true`; the sequence — hence the key's position in the traversal order
relative to every other key — is unchanged (update is not a move-to-back),
and so is every other key's value. Stated for every state, so it holds in
particular after any sequence of preceding `Set` calls. -/
theorem set_existing_overwrites_in_place [Inhabited V]
    (om : OrderedMap K V) (k : K) (v : V)
    (h : (Get om k).2 = true) :
    (Set om k v).1 = ((Get om k).1, true) ∧
    (Set om k v).2.seq = om.seq ∧
    Get (Set om k v).2 k = (v, true) ∧
    (∀ k', k' ≠ k → Get (Set om k v).2 k' = Get om k') ∧
    (WF om →
      (traverseFwd (Set om k v).2).map Prod.fst =
        (traverseFwd om).map Prod.fst) := by
  rcases hl : lookupVal om.pairs k with _ | v0
  · rw [Get, hl] at h
    simp at h
  · refine ⟨?_, ?_, ?_, ?_, ?_⟩
    · simp [Set, Get, hl]
    · simp [Set, hl]
    · simp [Get, Set, hl, lookupVal_setVal_self]
    · intro k' hk'
      simp [Get, Set, hl, lookupVal_setVal_ne om.pairs k k' v hk']
    · intro hwf
      have hwf' : WF (Set om k v).2 := wf_set om k v hwf
      rw [traverseFwd_eq om hwf, traverseFwd_eq (Set om k v).2 hwf']
      simp [Set, hl]

/-- C2: for every map state and every key not present, `Set(key, value)`
creates a new entry, appends it at the tail of the sequence (so `Newest`
returns it), inserts it into the index (so `Get` finds it), and returns
the zero value with `false`. -/
theorem set_absent_appends_to_tail [Inhabited V]
    (om : OrderedMap K V) (k : K) (v : V)
    (h : (Get om k).2 = false) :
    (Set om k v).1 = (default, false) ∧
    (Set om k v).2.seq = om.seq ++ [k] ∧
    Newest (Set om k v).2 = some k ∧
    Get (Set om k v).2 k = (v, true) := by
  rcases hl : lookupVal om.pairs k with _ | v0
  · refine ⟨?_, ?_, ?_, ?_⟩
    · simp [Set, hl]
    · simp [Set, hl]
    · simp [Newest, Set, hl]
    · simp [Get, Set, hl, lookupVal_append_of_none om.pairs k v hl]
  · rw [Get, hl] at h
    simp at h

/-- C3: `Delete` on a present key removes the key's node from the sequence
and the key from the index and returns its value with `true`; on an absent
key it mutates nothing and returns the zero value with `false`; hence a
second `Delete` of the same key is a no-op returning `false`. -/
theorem delete_removes_and_is_idempotent [Inhabited V]
    (om : OrderedMap K V) (k : K) (hwf : WF om) :
    ((Get om k).2 = true →
      (Delete om k).1 = ((Get om k).1, true) ∧
      (Delete om k).2.seq = om.seq.erase k ∧
      k ∉ (Delete om k).2.seq ∧
      Get (Delete om k).2 k = (default, false)) ∧
    ((Get om k).2 = false → Delete om k = ((default, false), om)) ∧
    Delete (Delete om k).2 k = ((default, false), (Delete om k).2) := by
  rcases hl : lookupVal om.pairs k with _ | v0
  · refine ⟨?_, ?_, ?_⟩
    · intro h
      rw [Get, hl] at h
      simp at h
    · intro _
      simp [Delete, hl]
    · simp [Delete, hl]
  · refine ⟨?_, ?_, ?_⟩
    · intro _
      refine ⟨?_, ?_, ?_, ?_⟩
      · simp [Delete, Get, hl]
      · simp [Delete, hl]
      · simp only [Delete, hl]
        exact hwf.1.not_mem_erase
      · simp [Get, Delete, hl, lookupVal_eraseKey_self]
    · intro h
      rw [Get, hl] at h
      simp at h
    · simp [Delete, hl, lookupVal_eraseKey_self]

/-- C4: after any sequence of `Set`/`Delete` operations from a new map,
`Len()` equals the sequence length (index size = sequence size, the
cross-structure invariant), the traversal count from `Oldest()` forward
and from `Newest()` backward, and counts exactly the distinct keys
currently present (the sequence has no duplicate and holds precisely the
keys `Get` finds). -/
theorem len_matches_index_sequence_and_traversals [Inhabited V]
    (om : OrderedMap K V) (h : Reachable om) :
    Len om = om.seq.length ∧
    om.seq.Nodup ∧
    (∀ k, k ∈ om.seq ↔ (Get om k).2 = true) ∧
    (traverseFwd om).length = Len om ∧
    (traverseBwd om).length = Len om := by
  have hwf := wf_of_reachable om h
  have hlen : Len om = om.seq.length := by
    have h1 : (om.pairs.map Prod.fst).length = om.seq.length := hwf.2.length_eq
    rw [List.length_map] at h1
    exact h1
  refine ⟨hlen, hwf.1, ?_, ?_, ?_⟩
  · intro k
    rw [mem_seq_iff_lookup om hwf k]
    rcases hl : lookupVal om.pairs k with _ | v <;> simp [Get, hl]
  · rw [traverseFwd_eq om hwf, List.length_map, hlen]
  · rw [traverseBwd_eq om hwf, List.length_map, List.length_reverse, hlen]

/-- C5: deleting a present key `k` and then `Set(k, v)` re-appends `k` at
the tail: the sequence becomes the old one with `k` removed followed by
`k`, so `Newest` returns `k`, the relative order of all other keys is
preserved, and if some other key came after `k` originally then `k`'s
index in the sequence has changed. -/
theorem delete_then_set_moves_to_tail [Inhabited V]
    (om : OrderedMap K V) (k : K) (v : V) (hwf : WF om)
    (h : (Get om k).2 = true) :
    (Set (Delete om k).2 k v).2.seq = om.seq.erase k ++ [k] ∧
    Newest (Set (Delete om k).2 k v).2 = some k ∧
    (Set (Delete om k).2 k v).2.seq.filter (fun a => decide ¬(a = k)) =
      om.seq.filter (fun a => decide ¬(a = k)) ∧
    (∀ j, j ∈ om.seq → j ≠ k → om.seq.indexOf k < om.seq.indexOf j →
      (Set (Delete om k).2 k v).2.seq.indexOf k ≠ om.seq.indexOf k) := by
  rcases hl : lookupVal om.pairs k with _ | v0
  · rw [Get, hl] at h
    simp at h
  · have hseq : (Set (Delete om k).2 k v).2.seq = om.seq.erase k ++ [k] := by
      simp [Set, Delete, hl, lookupVal_eraseKey_self]
    have hkmem : k ∈ om.seq :=
      (mem_seq_iff_lookup om hwf k).mpr (by rw [hl]; rfl)
    have hknotin : k ∉ om.seq.erase k := hwf.1.not_mem_erase
    refine ⟨hseq, ?_, ?_, ?_⟩
    · rw [Newest, hseq, List.getLast?_concat]
    · rw [hseq, List.filter_append]
      have h1 : (([k] : List K).filter (fun a => decide ¬(a = k))) = [] := by
        simp
      rw [h1, List.append_nil]
      exact filter_ne_erase om.seq k
    · intro j hj hjk hlt
      rw [hseq, indexOf_append_singleton _ k hknotin]
      have hjlen : om.seq.indexOf j < om.seq.length :=
        List.indexOf_lt_length.mpr hj
      have herase : (om.seq.erase k).length = om.seq.length - 1 :=
        List.length_erase_of_mem hkmem
      rw [herase]
      omega

/-- C6: the forward traversal (`Oldest()` then `Next()` until nil) is the
exact reverse of the backward traversal (`Newest()` then `Prev()` until
nil), key-value pairs included. -/
theorem forward_is_reverse_of_backward [Inhabited V]
    (om : OrderedMap K V) (hwf : WF om) :
    traverseFwd om = (traverseBwd om).reverse := by
  rw [traverseFwd_eq om hwf, traverseBwd_eq om hwf, List.map_reverse,
    List.reverse_reverse]

/-- C7: for a present key, `GetPair` returns its pair and the traversal
resumed there (repeated `Next()`) is exactly the suffix of the full
forward traversal that starts at that key, every earlier pair having a
different key; for an absent key `GetPair` is nil and the resumed
traversal is empty. -/
theorem getpair_resumes_suffix [Inhabited V]
    (om : OrderedMap K V) (k : K) (hwf : WF om) :
    ((Get om k).2 = true →
      GetPair om k = some k ∧
      (∃ pre,
        traverseFwd om = pre ++ traverseFrom om (GetPair om k) ∧
        (∀ p ∈ pre, p.1 ≠ k) ∧
        (traverseFrom om (GetPair om k)).head?.map Prod.fst = some k)) ∧
    ((Get om k).2 = false →
      GetPair om k = none ∧ traverseFrom om (GetPair om k) = []) := by
  rcases hl : lookupVal om.pairs k with _ | v0
  · refine ⟨?_, ?_⟩
    · intro h
      rw [Get, hl] at h
      simp at h
    · intro _
      have hgp : GetPair om k = none := by simp [GetPair, hl]
      exact ⟨hgp, by rw [hgp, traverseFrom, chainFrom_none]⟩
  · have hgp : GetPair om k = some k := by simp [GetPair, hl]
    refine ⟨?_, ?_⟩
    · intro _
      have hkmem : k ∈ om.seq :=
        (mem_seq_iff_lookup om hwf k).mpr (by rw [hl]; rfl)
      obtain ⟨l1, l2, hs⟩ := List.mem_iff_append.mp hkmem
      have hnd := hwf.1
      rw [hs] at hnd
      have hknotl1 : k ∉ l1 := fun hm =>
        List.disjoint_of_nodup_append hnd hm (List.mem_cons_self k l2)
      have hfrom : traverseFrom om (GetPair om k) =
          (k :: l2).map (fun a => (a, (Get om a).1)) := by
        rw [hgp, traverseFrom]
        have hh : (some k : Option K) = (k :: l2).head? := rfl
        rw [hh]
        exact chainFrom_decomp om om.seq hwf.1
          (fun a ha => (mem_seq_iff_lookup om hwf a).mp ha)
          (k :: l2) l1 om.seq.length hs
          (by rw [hs, List.length_append, List.length_cons]; omega)
      have hfwd : traverseFwd om =
          (l1.map fun a => (a, (Get om a).1)) ++
            ((k :: l2).map fun a => (a, (Get om a).1)) := by
        rw [traverseFwd_eq om hwf, hs, List.map_append]
      refine ⟨hgp, l1.map (fun a => (a, (Get om a).1)), ?_, ?_, ?_⟩
      · rw [hfwd, hfrom]
      · intro p hp
        obtain ⟨a, ha, rfl⟩ := List.mem_map.mp hp
        exact fun hc => hknotl1 (hc ▸ ha)
      · rw [hfrom]
        rfl
    · intro h
      rw [Get, hl] at h
      simp at h

/-- C8: `Get` returns the associated value with `true` on a present key
and the zero value with `false` on an absent one. The Go body performs no
write, so `Get` is embedded as a pure function of the state: key set,
values, order and `Len` are unchanged by construction. -/
theorem get_reports_presence [Inhabited V]
    (om : OrderedMap K V) (k : K) (hwf : WF om) :
    (k ∈ om.seq →
      (Get om k).2 = true ∧ lookupVal om.pairs k = some (Get om k).1) ∧
    (k ∉ om.seq → Get om k = (default, false)) := by
  rcases hl : lookupVal om.pairs k with _ | v
  · refine ⟨?_, ?_⟩
    · intro hm
      have := (mem_seq_iff_lookup om hwf k).mp hm
      rw [hl] at this
      simp at this
    · intro _
      simp [Get, hl]
  · refine ⟨?_, ?_⟩
    · intro _
      simp [Get, hl]
    · intro hm
      exact absurd ((mem_seq_iff_lookup om hwf k).mpr (by rw [hl]; rfl)) hm

/-- C9: `Set(k, v)` and `Delete(k)` do not touch any other key `k'`: its
value as observed by `Get` is unchanged, and the sequence restricted to
the keys other than `k` (their relative traversal order) is unchanged. -/
theorem set_delete_frame_other_keys [Inhabited V]
    (om : OrderedMap K V) (k k' : K) (v : V) (h : k' ≠ k) :
    Get (Set om k v).2 k' = Get om k' ∧
    Get (Delete om k).2 k' = Get om k' ∧
    (Set om k v).2.seq.filter (fun a => decide ¬(a = k)) =
      om.seq.filter (fun a => decide ¬(a = k)) ∧
    (Delete om k).2.seq.filter (fun a => decide ¬(a = k)) =
      om.seq.filter (fun a => decide ¬(a = k)) := by
  rcases hl : lookupVal om.pairs k with _ | v0
  · refine ⟨?_, ?_, ?_, ?_⟩
    · simp [Get, Set, hl, lookupVal_append_ne om.pairs k k' v h]
    · simp [Get, Delete, hl]
    · rw [show (Set om k v).2.seq = om.seq ++ [k] by simp [Set, hl],
        List.filter_append]
      have h1 : (([k] : List K).filter (fun a => decide ¬(a = k))) = [] := by
        simp
      rw [h1, List.append_nil]
    · simp [Delete, hl]
  · refine ⟨?_, ?_, ?_, ?_⟩
    · simp [Get, Set, hl, lookupVal_setVal_ne om.pairs k k' v h]
    · simp [Get, Delete, hl, lookupVal_eraseKey_ne om.pairs k k' h]
    · simp [Set, hl]
    · rw [show (Delete om k).2.seq = om.seq.erase k by simp [Delete, hl]]
      exact filter_ne_erase om.seq k

/-! ## Concrete witnesses -/

/-- A small concrete well-formed map, the state after
`Set 1 10; Set 2 20` from `New`. -/
def exMap : OrderedMap Nat Nat := ⟨[(1, 10), (2, 20)], [1, 2]⟩

/-- Witness for C1: updating present key 1 on a concrete map. -/
theorem set_existing_overwrites_in_place_witness :
    (Get exMap 1).2 = true ∧
    (Set exMap 1 99).1 = ((Get exMap 1).1, true) ∧
    (Set exMap 1 99).2.seq = exMap.seq ∧
    Get (Set exMap 1 99).2 1 = (99, true) := by
  have t := set_existing_overwrites_in_place exMap 1 99 (by decide)
  exact ⟨by decide, t.1, t.2.1, t.2.2.1⟩

/-- Witness for C2: inserting absent key 3 on a concrete map. -/
theorem set_absent_appends_to_tail_witness :
    (Get exMap 3).2 = false ∧
    (Set exMap 3 30).1 = (default, false) ∧
    (Set exMap 3 30).2.seq = exMap.seq ++ [3] ∧
    Newest (Set exMap 3 30).2 = some 3 ∧
    Get (Set exMap 3 30).2 3 = (30, true) := by
  have t := set_absent_appends_to_tail exMap 3 30 (by decide)
  exact ⟨by decide, t.1, t.2.1, t.2.2.1, t.2.2.2⟩

/-- Witness for C3: deleting present key 1 on a concrete map, twice. -/
theorem delete_removes_and_is_idempotent_witness :
    WF exMap ∧
    (Delete exMap 1).1 = ((Get exMap 1).1, true) ∧
    (Delete exMap 1).2.seq = exMap.seq.erase 1 ∧
    Get (Delete exMap 1).2 1 = (default, false) ∧
    Delete (Delete exMap 1).2 1 = ((default, false), (Delete exMap 1).2) := by
  have t := delete_removes_and_is_idempotent exMap 1 (by decide)
  exact ⟨by decide, (t.1 (by decide)).1, (t.1 (by decide)).2.1,
    (t.1 (by decide)).2.2.2, t.2.2⟩

/-- Witness for C4: the length invariant on a concrete reachable map. -/
theorem len_matches_index_sequence_and_traversals_witness :
    Len (Set (New : OrderedMap Nat Nat) 1 10).2 =
      (Set (New : OrderedMap Nat Nat) 1 10).2.seq.length ∧
    (traverseFwd (Set (New : OrderedMap Nat Nat) 1 10).2).length =
      Len (Set (New : OrderedMap Nat Nat) 1 10).2 ∧
    (traverseBwd (Set (New : OrderedMap Nat Nat) 1 10).2).length =
      Len (Set (New : OrderedMap Nat Nat) 1 10).2 := by
  have t := len_matches_index_sequence_and_traversals
    (Set (New : OrderedMap Nat Nat) 1 10).2
    (Reachable.set New 1 10 Reachable.new)
  exact ⟨t.1, t.2.2.2.1, t.2.2.2.2⟩

/-- Witness for C5: delete key 1 then re-insert it on a concrete map. -/
theorem delete_then_set_moves_to_tail_witness :
    (Set (Delete exMap 1).2 1 99).2.seq = exMap.seq.erase 1 ++ [1] ∧
    Newest (Set (Delete exMap 1).2 1 99).2 = some 1 ∧
    (Set (Delete exMap 1).2 1 99).2.seq.filter (fun a => decide ¬(a = 1)) =
      exMap.seq.filter (fun a => decide ¬(a = 1)) := by
  have t := delete_then_set_moves_to_tail exMap 1 99 (by decide) (by decide)
  exact ⟨t.1, t.2.1, t.2.2.1⟩

/-- Witness for C6: bidirectional symmetry on a concrete map. -/
theorem forward_is_reverse_of_backward_witness :
    traverseFwd exMap = (traverseBwd exMap).reverse :=
  forward_is_reverse_of_backward exMap (by decide)

/-- Witness for C7: resuming at present key 2 and at absent key 3 on a
concrete map. -/
theorem getpair_resumes_suffix_witness :
    GetPair exMap 2 = some 2 ∧
    GetPair exMap 3 = none ∧
    traverseFrom exMap (GetPair exMap 3) = [] := by
  have t2 := getpair_resumes_suffix exMap 2 (by decide)
  have t3 := getpair_resumes_suffix exMap 3 (by decide)
  exact ⟨(t2.1 (by decide)).1, (t3.2 (by decide)).1, (t3.2 (by decide)).2⟩

/-- Witness for C8: `Get` on present key 2 and absent key 3 of a concrete
map. -/
theorem get_reports_presence_witness :
    (Get exMap 2).2 = true ∧
    lookupVal exMap.pairs 2 = some (Get exMap 2).1 ∧
    Get exMap 3 = (default, false) := by
  have t2 := get_reports_presence exMap 2 (by decide)
  have t3 := get_reports_presence exMap 3 (by decide)
  exact ⟨(t2.1 (by decide)).1, (t2.1 (by decide)).2, t3.2 (by decide)⟩

/-- Witness for C9: mutating key 1 leaves key 2 untouched on a concrete
map. -/
theorem set_delete_frame_other_keys_witness :
    Get (Set exMap 1 99).2 2 = Get exMap 2 ∧
    Get (Delete exMap 1).2 2 = Get exMap 2 ∧
    (Delete exMap 1).2.seq.filter (fun a => decide ¬(a = 1)) =
      exMap.seq.filter (fun a => decide ¬(a = 1)) := by
  have t := set_delete_frame_other_keys exMap 1 2 99 (by decide)
  exact ⟨t.1, t.2.1, t.2.2.2⟩

end OrderedMapGo
